import Mathlib

/-!
Verification development for `find_duplicates.py`, a batch pipeline that
scans a directory tree, groups files by content digest, and relocates all
but the first file of each duplicate group into a target directory while
writing a textual log.

The embedding models filesystem paths as lists of components, file
contents as byte lists, and a filesystem state as an association list of
files plus a set of directories and a set of unreadable files.  The hash
function is an explicit parameter (the source fixes MD5; every claim about
grouping is conditional on collision behaviour, so the digest function is
abstracted as a parameter applied to the full byte content, which is what
the block-streaming loop of `compute_hash` computes).
-/

namespace FindDup

/-- A filesystem path, as its list of components (absolute, normalized). -/
abbrev Path := List String

/-- File content as a list of bytes. -/
abbrev Content := List Nat

/-- Render a path the way the Python strings would show it. -/
def pathStr (p : Path) : String := "/" ++ String.intercalate "/" p

/-- Association-list lookup keyed by path (first match). -/
def assocLookup {α : Type} : List (Path × α) → Path → Option α
  | [], _ => none
  | (q, v) :: rest, p => if p = q then some v else assocLookup rest p

/-- Remove every binding of a path from an association list. -/
def assocErase {α : Type} : List (Path × α) → Path → List (Path × α)
  | [], _ => []
  | (q, v) :: rest, p => if q = p then assocErase rest p else (q, v) :: assocErase rest p

/-- Overwrite the binding of a path in an association list. -/
def assocSet {α : Type} (l : List (Path × α)) (p : Path) (v : α) : List (Path × α) :=
  assocErase l p ++ [(p, v)]

/-- `hasBase b p` tests whether `b` is an initial segment of `p`. -/
def hasBase : Path → Path → Bool
  | [], _ => true
  | _ :: _, [] => false
  | a :: as, b :: bs => decide (a = b) && hasBase as bs

/-- `strictUnder b p`: `p` lies strictly below `b` in the tree. -/
def strictUnder (base p : Path) : Bool := hasBase base p && decide (p ≠ base)

/-- Length of the longest common initial segment of two paths. -/
def commonLen : Path → Path → Nat
  | a :: as, b :: bs => if a = b then commonLen as bs + 1 else 0
  | _, _ => 0

/-- Embeds `os.path.relpath(p, start)` on normalized component paths:
climb out of the uncommon part of `start` with `..` components, then
descend into the uncommon part of `p`; equal paths give `["."]`. -/
def relpath (p start : Path) : Path :=
  let c := commonLen p start
  let r := List.replicate (start.length - c) ".." ++ p.drop c
  if r = [] then ["."] else r

/-- All nonempty initial segments of a path (ancestors and itself). -/
def initSegs : Path → List Path
  | [] => []
  | a :: rest => [a] :: (initSegs rest).map (fun q => a :: q)

/-- The filesystem state: regular files with contents in traversal order,
directories, and files whose open/read raises, with the error message. -/
structure FS where
  files : List (Path × Content)
  dirs : List Path
  unreadable : List (Path × String)

deriving instance DecidableEq for Except

/-- One file met during `os.walk`: its path and the outcome of reading it. -/
structure FsEntry where
  path : Path
  read : Except String Content
  deriving DecidableEq

/-- The files `os.walk(source_dir)` yields, in traversal order (the order
of `FS.files`), each with the outcome of opening and reading it. -/
def walkEntries (source_dir : Path) (fs : FS) : List FsEntry :=
  fs.files.filterMap fun pc =>
    if strictUnder source_dir pc.1 then
      some ⟨pc.1, match assocLookup fs.unreadable pc.1 with
                  | some e => .error e
                  | none => .ok pc.2⟩
    else none

/-- Embeds `compute_hash`: the digest of the full byte content (which is
what the block-streaming MD5 loop accumulates) and no output on success;
`None` plus the printed diagnostic when the open or a read raises. -/
def compute_hash (md5 : Content → String) (e : FsEntry) : Option String × List String :=
  match e.read with
  | .ok c => (some (md5 c), [])
  | .error err => (none, ["无法读取文件 " ++ pathStr e.path ++ ": " ++ err])

/-- Append a path to the digest group of `h`: the effect of
`hashes[file_hash].append(file_path)` on the insertion-ordered dict. -/
def addToGroups : List (String × List Path) → String → Path → List (String × List Path)
  | [], h, p => [(h, [p])]
  | (k, ps) :: rest, h, p =>
      if k = h then (k, ps ++ [p]) :: rest else (k, ps) :: addToGroups rest h p

/-- The `os.walk` loop of `find_duplicates`: threads the `hashes` dict,
the file counter and the printed lines over the walked entries. -/
def scanLoop (md5 : Content → String) :
    List FsEntry → List (String × List Path) → Nat → List String →
      List (String × List Path) × Nat × List String
  | [], hashes, file_count, out => (hashes, file_count, out)
  | e :: rest, hashes, file_count, out =>
      let fc := file_count + 1
      let out1 := if fc % 100 = 0 then out ++ ["已扫描 " ++ toString fc ++ " 个文件..."] else out
      match compute_hash md5 e with
      | (some h, msgs) => scanLoop md5 rest (addToGroups hashes h e.path) fc (out1 ++ msgs)
      | (none, msgs) => scanLoop md5 rest hashes fc (out1 ++ msgs)

/-- The `hashes` dict as it stands when the scan loop finishes. -/
def scanHashes (md5 : Content → String) (source_dir : Path) (fs : FS) :
    List (String × List Path) :=
  (scanLoop md5 (walkEntries source_dir fs) [] 0 []).1

/-- Embeds `find_duplicates`: the digest groups having at least two paths,
the number of files examined, and the printed lines. -/
def find_duplicates (md5 : Content → String) (source_dir : Path) (fs : FS) :
    List (String × List Path) × Nat × List String :=
  let r := scanLoop md5 (walkEntries source_dir fs) [] 0 []
  (r.1.filter (fun g => decide (1 < g.2.length)), r.2.1,
    ("开始扫描文件夹: " ++ pathStr source_dir) :: r.2.2 ++
      ["扫描完成，共处理 " ++ toString r.2.1 ++ " 个文件。"])

/-- First-match lookup of a digest group by its key. -/
def findGroup : List (String × List Path) → String → Option (List Path)
  | [], _ => none
  | (k, ps) :: rest, h => if h = k then some ps else findGroup rest h

/-- The walked paths whose read succeeds and whose content hashes to `h`,
in traversal order. -/
def hashedPaths (md5 : Content → String) (walk : List FsEntry) (h : String) : List Path :=
  walk.filterMap fun e =>
    match e.read with
    | .ok c => if md5 c = h then some e.path else none
    | .error _ => none

/-- The pure grouping action of the scan loop. -/
def scanGroupsFrom (md5 : Content → String) :
    List (String × List Path) → List FsEntry → List (String × List Path)
  | gs, [] => gs
  | gs, e :: rest =>
      match e.read with
      | .ok c => scanGroupsFrom md5 (addToGroups gs (md5 c) e.path) rest
      | .error _ => scanGroupsFrom md5 gs rest

/-- Whether the entry's read succeeded. -/
def readOk (e : FsEntry) : Bool :=
  match e.read with
  | .ok _ => true
  | .error _ => false

/-- The digest keys of a group list. -/
def keysOf (gs : List (String × List Path)) : List String := gs.map Prod.fst

/-- Whether a path exists in the filesystem, as a file or a directory:
`os.path.exists`. -/
def pathExists (fs : FS) (p : Path) : Bool :=
  (assocLookup fs.files p).isSome || decide (p ∈ fs.dirs)

/-- Embeds `os.makedirs`: create the directory and every missing
ancestor (directory membership is read up to list membership). -/
def makedirs (fs : FS) (p : Path) : FS :=
  { fs with dirs := fs.dirs ++ initSegs p }

/-- Embeds `os.rename` within one POSIX filesystem for a regular-file
source: fails if the source file is missing; silently replaces an
existing destination file. -/
def os_rename (fs : FS) (src dst : Path) : Except String FS :=
  match assocLookup fs.files src with
  | none => .error ("FileNotFoundError: " ++ pathStr src)
  | some c => .ok { fs with files := assocSet (assocErase fs.files src) dst c }

/-- Embeds `shutil.move` for regular-file sources within one POSIX
filesystem: moving onto an existing directory goes inside it and refuses
to replace an existing entry there; otherwise `os.rename` semantics
apply, silently replacing an existing destination file. -/
def shutil_move (fs : FS) (src dst : Path) : Except String FS :=
  if dst ∈ fs.dirs then
    let real_dst := dst ++ [src.getLastD ""]
    if pathExists fs real_dst then
      .error ("Destination path " ++ pathStr real_dst ++ " already exists")
    else os_rename fs src real_dst
  else os_rename fs src dst

/-- The `try` body for one duplicate in `move_duplicates`: read the
module-level global `source_dir` (an unbound global raises `NameError`,
caught like any other exception), compute the relative path, create the
destination directory on demand, move.  Returns the state after whatever
side effects happened, plus the outcome. -/
def moveOne (g_source_dir : Option Path) (target_dir : Path) (fs : FS)
    (duplicate : Path) : FS × Except String Path :=
  match g_source_dir with
  | none => (fs, .error "NameError: name source_dir is not defined")
  | some source_dir =>
      let relative_path := relpath duplicate source_dir
      let new_path := target_dir ++ relative_path
      let new_dir := new_path.dropLast
      let fs1 := if pathExists fs new_dir then fs else makedirs fs new_dir
      match shutil_move fs1 duplicate new_path with
      | .ok fs2 => (fs2, .ok new_path)
      | .error e => (fs1, .error e)

/-- The inner loop of `move_duplicates` over the duplicates of one group,
recording each attempted path with its outcome. -/
def moveGroup (gsd : Option Path) (target_dir : Path) :
    FS → List Path → FS × List (Path × Except String Path)
  | fs, [] => (fs, [])
  | fs, d :: rest =>
      let r := moveOne gsd target_dir fs d
      let rs := moveGroup gsd target_dir r.1 rest
      (rs.1, (d, r.2) :: rs.2)

/-- The log entry a duplicate contributes, from its move outcome. -/
def entryFor (p : Path) (r : Except String Path) : String :=
  match r with
  | .ok d => "  重复文件: " ++ pathStr p ++ "\n  移动到: " ++ pathStr d ++ "\n"
  | .error e => "  无法移动文件: " ++ pathStr p ++ ". 错误: " ++ e ++ "\n"

/-- The outer loop of `move_duplicates`: per group, keep the first path,
move the rest, and append the group's log entries: the original's line,
one entry per duplicate, and a terminating blank entry. -/
def moveGroups (gsd : Option Path) (target_dir : Path) :
    FS → List (String × List Path) →
      FS × List String × List (Path × Except String Path)
  | fs, [] => (fs, [], [])
  | fs, (_, files) :: rest =>
      let original := files.headD []
      let r := moveGroup gsd target_dir fs files.tail
      let rs := moveGroups gsd target_dir r.1 rest
      (rs.1,
        (("原始文件: " ++ pathStr original ++ "\n") ::
          r.2.map (fun a => entryFor a.1 a.2) ++ ["\n"]) ++ rs.2.1,
        r.2 ++ rs.2.2)

/-- UTF-8 encoding of a character. -/
def utf8Char (c : Char) : List Nat :=
  let n := c.toNat
  if n < 128 then [n]
  else if n < 2048 then [192 + n / 64, 128 + n % 64]
  else if n < 65536 then [224 + n / 4096, 128 + n / 64 % 64, 128 + n % 64]
  else [240 + n / 262144, 128 + n / 4096 % 64, 128 + n / 64 % 64, 128 + n % 64]

/-- UTF-8 encoding of a string. -/
def utf8 (s : String) : Content := (s.data.map utf8Char).flatten

/-- The log file path `duplicates_log_<timestamp>.txt` under the target. -/
def logFilePath (target_dir : Path) (timestamp : String) : Path :=
  target_dir ++ ["duplicates_log_" ++ timestamp ++ ".txt"]

/-- Embeds `move_duplicates`: create the target directory if absent,
relocate every non-first path of every group, and write the UTF-8 log,
the newline-join of the collected entries, under the target.  Returns the
final state, the log entries, and the per-duplicate outcomes. -/
def move_duplicates (gsd : Option Path) (duplicates : List (String × List Path))
    (target_dir : Path) (timestamp : String) (fs : FS) :
    FS × List String × List (Path × Except String Path) :=
  let fs0 := if pathExists fs target_dir then fs else makedirs fs target_dir
  let r := moveGroups gsd target_dir fs0 duplicates
  let logContent := utf8 (String.intercalate "\n" r.2.1)
  ({ r.1 with files := assocSet r.1.files (logFilePath target_dir timestamp) logContent },
    r.2.1, r.2.2)

/-- Embeds `main`: validate the source directory, scan, stop when there
are no duplicate groups, otherwise relocate.  `gsd` is the module-level
global `source_dir` that `move_duplicates` reads; the CLI block assigns
it the same absolute path that is passed as the `source_dir` argument. -/
def main (md5 : Content → String) (gsd : Option Path) (timestamp : String)
    (fs : FS) (source_dir target_dir : Path) : FS × List String :=
  let out0 := ["开始处理...", "源文件夹: " ++ pathStr source_dir,
    "目标文件夹: " ++ pathStr target_dir]
  if source_dir ∈ fs.dirs then
    let r := find_duplicates md5 source_dir fs
    if r.1 = [] then (fs, out0 ++ r.2.2 ++ ["没有找到重复文件。"])
    else
      let total := (r.1.map (fun g => g.2.length - 1)).sum
      let m := move_duplicates gsd r.1 target_dir timestamp fs
      (m.1, out0 ++ r.2.2 ++ ["找到 " ++ toString total ++ " 个重复文件。"])
  else (fs, out0 ++ ["错误：源文件夹不存在: " ++ pathStr source_dir])

/-- Embeds the `__main__` CLI block: the module-level global `source_dir`
is assigned the absolute source path, so `main` runs with the global
bound to the same path as its `source_dir` argument. -/
def cli (md5 : Content → String) (timestamp : String) (fs : FS)
    (source target : Path) : FS × List String :=
  main md5 (some source) timestamp fs source target

/-- The destination `move_duplicates` computes for a duplicate. -/
def destOf (source_dir target_dir p : Path) : Path :=
  target_dir ++ relpath p source_dir

/-- All paths of all groups, in processing order. -/
def pathsOf (dups : List (String × List Path)) : List Path :=
  (dups.map (fun g => g.2)).flatten

/-- The non-first paths of all groups, in processing order: exactly the
paths `move_duplicates` attempts to relocate. -/
def tailsOf (dups : List (String × List Path)) : List Path :=
  (dups.map (fun g => g.2.tail)).flatten

/-- A concrete digest function for concrete runs. -/
def md5W : Content → String := fun c => if c = [1] then "x" else "y"

/-- A concrete filesystem: two identical files and one unique file. -/
def fsW : FS :=
  ⟨[(["s", "a"], [1]), (["s", "b"], [1]), (["s", "c"], [2])], [["s"]], []⟩

/-- A concrete filesystem with one unreadable file. -/
def fsW6 : FS :=
  ⟨[(["s", "a"], [1]), (["s", "b"], [2])], [["s"]], [(["s", "a"], "Permission denied")]⟩

/-- A concrete duplicate group: `/s/a` original, `/s/b` duplicate. -/
def dupsW : List (String × List Path) := [("x", [["s", "a"], ["s", "b"]])]

/-- A concrete filesystem with a three-way duplicate group. -/
def fsW2 : FS :=
  ⟨[(["s", "a"], [1]), (["s", "b"], [1]), (["s", "sub", "c"], [1])],
    [["s"], ["s", "sub"]], []⟩

/-- The three-way duplicate group of `fsW2`. -/
def dupsW2 : List (String × List Path) :=
  [("x", [["s", "a"], ["s", "b"], ["s", "sub", "c"]])]

/-- A concrete filesystem in which `/s/gone` does not exist. -/
def fsW7 : FS := ⟨[(["s", "a"], [1]), (["s", "b"], [1])], [["s"]], []⟩

/-- A duplicate group listing the vanished path `/s/gone`. -/
def dupsW7 : List (String × List Path) :=
  [("x", [["s", "a"], ["s", "gone"], ["s", "b"]])]

/-- A concrete filesystem whose target tree already holds a file at the
destination `/t/b` that the duplicate `/s/b` maps to. -/
def fsW5 : FS :=
  ⟨[(["s", "a"], [1]), (["s", "b"], [1]), (["t", "b"], [2])], [["s"], ["t"]], []⟩

/-- A concrete filesystem with a single (hence unique) file. -/
def fsW4 : FS := ⟨[(["s", "a"], [1])], [["s"]], []⟩

/-- The log layout asserted by claim C9, built from the claim's words:
one block of consecutive lines per duplicate group — the `原始文件` line
directly followed by the per-duplicate `  重复文件` and `  移动到` lines
— with the blocks separated by single blank lines (successful moves
assumed). -/
def claimedLogC9 (dups : List (String × List Path)) (source target : Path) : String :=
  String.intercalate "\n\n" (dups.map fun g =>
    String.intercalate "\n" (("原始文件: " ++ pathStr (g.2.headD [])) ::
      (g.2.tail.map fun p =>
        ["  重复文件: " ++ pathStr p,
         "  移动到: " ++ pathStr (target ++ relpath p source)]).flatten))

theorem assocLookup_erase {α : Type} (l : List (Path × α)) (p q : Path) :
    assocLookup (assocErase l p) q = if q = p then none else assocLookup l q := by
  induction l with
  | nil => simp [assocErase, assocLookup]
  | cons hd tl ih =>
    obtain ⟨r, v⟩ := hd
    by_cases hrp : r = p
    · subst hrp
      by_cases hq : q = r
      · subst hq
        simp [assocErase, assocLookup, ih]
      · simp [assocErase, assocLookup, hq, ih]
    · by_cases hq : q = r
      · subst hq
        simp [assocErase, assocLookup, hrp, Ne.symm hrp]
      · simp [assocErase, assocLookup, hrp, hq, ih]

theorem assocLookup_append {α : Type} (l₁ l₂ : List (Path × α)) (p : Path) :
    assocLookup (l₁ ++ l₂) p =
      match assocLookup l₁ p with
      | some v => some v
      | none => assocLookup l₂ p := by
  induction l₁ with
  | nil => simp [assocLookup]
  | cons hd tl ih =>
    obtain ⟨q, v⟩ := hd
    by_cases h : p = q <;> simp [assocLookup, h, ih]

theorem assocLookup_set_self {α : Type} (l : List (Path × α)) (p : Path) (v : α) :
    assocLookup (assocSet l p v) p = some v := by
  simp [assocSet, assocLookup_append, assocLookup_erase, assocLookup]

theorem assocLookup_set_ne {α : Type} (l : List (Path × α)) (p q : Path) (v : α)
    (h : q ≠ p) : assocLookup (assocSet l p v) q = assocLookup l q := by
  simp only [assocSet, assocLookup_append, assocLookup_erase, if_neg h, assocLookup]
  cases assocLookup l q <;> simp

theorem hasBase_iff (b p : Path) : hasBase b p = true ↔ ∃ r, p = b ++ r := by
  induction b generalizing p with
  | nil => simp [hasBase]
  | cons a as ih =>
    cases p with
    | nil =>
      simp only [hasBase]
      constructor
      · intro h; exact absurd h (by simp)
      · rintro ⟨r, hr⟩; exact absurd hr (by simp)
    | cons x xs =>
      simp only [hasBase, Bool.and_eq_true, decide_eq_true_eq, ih]
      constructor
      · rintro ⟨hax, r, hr⟩
        exact ⟨r, by simp [hax, hr]⟩
      · rintro ⟨r, hr⟩
        simp only [List.cons_append, List.cons.injEq] at hr
        exact ⟨hr.1.symm, r, hr.2⟩

theorem hasBase_append (b r : Path) : hasBase b (b ++ r) = true :=
  (hasBase_iff b (b ++ r)).mpr ⟨r, rfl⟩

theorem hasBase_refl (p : Path) : hasBase p p = true := by
  simpa using hasBase_append p []

theorem hasBase_length {b p : Path} (h : hasBase b p = true) : b.length ≤ p.length := by
  obtain ⟨r, rfl⟩ := (hasBase_iff b p).mp h
  simp

theorem hasBase_trans {a b c : Path} (h₁ : hasBase a b = true) (h₂ : hasBase b c = true) :
    hasBase a c = true := by
  obtain ⟨r, rfl⟩ := (hasBase_iff a b).mp h₁
  obtain ⟨s, rfl⟩ := (hasBase_iff (a ++ r) c).mp h₂
  exact (hasBase_iff _ _).mpr ⟨r ++ s, by simp⟩

theorem hasBase_cancel (x a b : Path) : hasBase (x ++ a) (x ++ b) = hasBase a b := by
  induction x with
  | nil => simp
  | cons c cs ih => simp [hasBase, ih]

theorem strictUnder_iff (b p : Path) :
    strictUnder b p = true ↔ ∃ r, r ≠ [] ∧ p = b ++ r := by
  simp only [strictUnder, Bool.and_eq_true, decide_eq_true_eq, hasBase_iff]
  constructor
  · rintro ⟨⟨r, rfl⟩, hne⟩
    refine ⟨r, ?_, rfl⟩
    rintro rfl
    simp at hne
  · rintro ⟨r, hr, rfl⟩
    refine ⟨⟨r, rfl⟩, ?_⟩
    simp [hr]

theorem commonLen_append (b r : Path) : commonLen (b ++ r) b = b.length := by
  induction b with
  | nil => cases r <;> simp [commonLen]
  | cons a as ih => simp [commonLen, ih]

theorem relpath_append (b r : Path) (h : r ≠ []) : relpath (b ++ r) b = r := by
  simp [relpath, commonLen_append, h]

theorem mem_initSegs (q p : Path) : q ∈ initSegs p ↔ q ≠ [] ∧ hasBase q p = true := by
  induction p generalizing q with
  | nil =>
    simp only [initSegs, List.not_mem_nil, false_iff, not_and]
    intro hq
    cases q with
    | nil => simp at hq
    | cons a as => simp [hasBase]
  | cons a rest ih =>
    simp only [initSegs, List.mem_cons, List.mem_map]
    constructor
    · rintro (rfl | ⟨s, hs, rfl⟩)
      · exact ⟨by simp, by simp [hasBase, hasBase_refl]⟩
      · obtain ⟨hne, hb⟩ := (ih s).mp hs
        exact ⟨by simp, by simp [hasBase, hb]⟩
    · rintro ⟨hne, hb⟩
      cases q with
      | nil => simp at hne
      | cons x xs =>
        simp only [hasBase, Bool.and_eq_true, decide_eq_true_eq] at hb
        obtain ⟨rfl, hxs⟩ := hb
        cases xs with
        | nil => exact Or.inl rfl
        | cons y ys => exact Or.inr ⟨y :: ys, (ih _).mpr ⟨by simp, hxs⟩, rfl⟩

theorem hasBase_dropLast (p : Path) : hasBase p.dropLast p = true := by
  induction p with
  | nil => simp [hasBase]
  | cons a rest ih =>
    cases rest with
    | nil => simp [hasBase]
    | cons b bs => simpa [hasBase] using ih

theorem scanLoop_fst (md5 : Content → String) (walk : List FsEntry)
    (gs : List (String × List Path)) (c : Nat) (out : List String) :
    (scanLoop md5 walk gs c out).1 = scanGroupsFrom md5 gs walk := by
  induction walk generalizing gs c out with
  | nil => rfl
  | cons e rest ih =>
    cases hre : e.read with
    | ok cc => simp [scanLoop, scanGroupsFrom, compute_hash, hre, ih]
    | error err => simp [scanLoop, scanGroupsFrom, compute_hash, hre, ih]

theorem scanLoop_count (md5 : Content → String) (walk : List FsEntry)
    (gs : List (String × List Path)) (c : Nat) (out : List String) :
    (scanLoop md5 walk gs c out).2.1 = c + walk.length := by
  induction walk generalizing gs c out with
  | nil => rfl
  | cons e rest ih =>
    cases hre : e.read with
    | ok cc => simp [scanLoop, compute_hash, hre, ih]; omega
    | error err => simp [scanLoop, compute_hash, hre, ih]; omega

theorem scanGroupsFrom_filter (md5 : Content → String) (walk : List FsEntry)
    (gs : List (String × List Path)) :
    scanGroupsFrom md5 gs (walk.filter readOk) = scanGroupsFrom md5 gs walk := by
  induction walk generalizing gs with
  | nil => rfl
  | cons e rest ih =>
    cases hre : e.read with
    | ok cc => simp [scanGroupsFrom, readOk, hre, List.filter, ih]
    | error err => simp [scanGroupsFrom, readOk, hre, List.filter, ih]

theorem findGroup_addToGroups (gs : List (String × List Path)) (h h' : String) (p : Path) :
    findGroup (addToGroups gs h p) h' =
      if h' = h then some ((findGroup gs h).getD [] ++ [p]) else findGroup gs h' := by
  induction gs with
  | nil =>
    by_cases hh : h' = h
    · simp [addToGroups, findGroup, hh]
    · simp [addToGroups, findGroup, hh]
  | cons g rest ih =>
    obtain ⟨k, ps⟩ := g
    by_cases hkh : k = h
    · subst hkh
      by_cases hh : h' = k
      · simp [addToGroups, findGroup, hh]
      · simp [addToGroups, findGroup, hh]
    · by_cases hh : h' = k
      · subst hh
        simp [addToGroups, findGroup, Ne.symm hkh, hkh]
      · simp [addToGroups, findGroup, hkh, hh, ih, Ne.symm hkh]

theorem findGroup_scanGroupsFrom (md5 : Content → String) (walk : List FsEntry)
    (gs : List (String × List Path)) (h : String) :
    findGroup (scanGroupsFrom md5 gs walk) h =
      match findGroup gs h with
      | some ps => some (ps ++ hashedPaths md5 walk h)
      | none =>
          if hashedPaths md5 walk h = [] then none else some (hashedPaths md5 walk h) := by
  induction walk generalizing gs with
  | nil => cases hg : findGroup gs h <;> simp [scanGroupsFrom, hashedPaths, hg]
  | cons e rest ih =>
    cases hre : e.read with
    | error err =>
      rw [show scanGroupsFrom md5 gs (e :: rest) = scanGroupsFrom md5 gs rest by
            simp [scanGroupsFrom, hre]]
      rw [ih]
      have : hashedPaths md5 (e :: rest) h = hashedPaths md5 rest h := by
        simp [hashedPaths, List.filterMap, hre]
      rw [this]
    | ok cc =>
      rw [show scanGroupsFrom md5 gs (e :: rest) =
            scanGroupsFrom md5 (addToGroups gs (md5 cc) e.path) rest by
            simp [scanGroupsFrom, hre]]
      rw [ih]
      rw [findGroup_addToGroups]
      by_cases hh : h = md5 cc
      · subst hh
        have : hashedPaths md5 (e :: rest) (md5 cc) =
            e.path :: hashedPaths md5 rest (md5 cc) := by
          simp [hashedPaths, List.filterMap, hre]
        rw [this]
        cases hg : findGroup gs (md5 cc) <;> simp [hg]
      · have : hashedPaths md5 (e :: rest) h = hashedPaths md5 rest h := by
          simp [hashedPaths, List.filterMap, hre, Ne.symm hh]
        rw [this, if_neg hh]

theorem keysOf_addToGroups (gs : List (String × List Path)) (h : String) (p : Path) :
    keysOf (addToGroups gs h p) =
      if h ∈ keysOf gs then keysOf gs else keysOf gs ++ [h] := by
  induction gs with
  | nil => simp [addToGroups, keysOf]
  | cons g rest ih =>
    obtain ⟨k, ps⟩ := g
    by_cases hk : k = h
    · subst hk
      simp [addToGroups, keysOf]
    · have hne : ¬h = k := fun hh => hk hh.symm
      simp only [addToGroups, if_neg hk, keysOf, List.map_cons] at ih ⊢
      rw [ih]
      by_cases hmem : h ∈ List.map Prod.fst rest
      · simp [hmem]
      · simp [hmem, hne]

theorem nodup_keys_scanGroupsFrom (md5 : Content → String) (walk : List FsEntry)
    (gs : List (String × List Path)) (hnd : (keysOf gs).Nodup) :
    (keysOf (scanGroupsFrom md5 gs walk)).Nodup := by
  induction walk generalizing gs with
  | nil => exact hnd
  | cons e rest ih =>
    cases hre : e.read with
    | error err =>
      rw [show scanGroupsFrom md5 gs (e :: rest) = scanGroupsFrom md5 gs rest by
            simp [scanGroupsFrom, hre]]
      exact ih gs hnd
    | ok cc =>
      rw [show scanGroupsFrom md5 gs (e :: rest) =
            scanGroupsFrom md5 (addToGroups gs (md5 cc) e.path) rest by
            simp [scanGroupsFrom, hre]]
      refine ih _ ?_
      rw [keysOf_addToGroups]
      by_cases hmem : md5 cc ∈ keysOf gs
      · simpa [hmem] using hnd
      · simp only [hmem, if_false]
        exact List.nodup_append.mpr ⟨hnd, List.nodup_singleton _, by
          intro x hx hx'
          simp only [List.mem_singleton] at hx'
          exact hmem (hx' ▸ hx)⟩

theorem mem_iff_findGroup (gs : List (String × List Path))
    (hnd : (keysOf gs).Nodup) (h : String) (ps : List Path) :
    (h, ps) ∈ gs ↔ findGroup gs h = some ps := by
  induction gs with
  | nil => simp [findGroup]
  | cons g rest ih =>
    obtain ⟨k, qs⟩ := g
    simp only [keysOf, List.map_cons, List.nodup_cons] at hnd
    obtain ⟨hknot, hndrest⟩ := hnd
    by_cases hk : h = k
    · subst hk
      simp only [findGroup, if_pos rfl, List.mem_cons, Prod.mk.injEq, true_and]
      constructor
      · rintro (rfl | hmem)
        · rfl
        · exact absurd (List.mem_map.mpr ⟨(h, ps), hmem, rfl⟩) hknot
      · rintro h'
        exact Or.inl (by injection h' with h''; exact h''.symm ▸ rfl)
    · simp only [findGroup, if_neg hk, List.mem_cons, Prod.mk.injEq]
      rw [← ih hndrest]
      constructor
      · rintro (⟨rfl, rfl⟩ | hmem)
        · exact absurd rfl hk
        · exact hmem
      · intro hmem
        exact Or.inr hmem

theorem mem_scanHashes (md5 : Content → String) (source_dir : Path) (fs : FS)
    (h : String) (ps : List Path) :
    (h, ps) ∈ scanHashes md5 source_dir fs ↔
      ps = hashedPaths md5 (walkEntries source_dir fs) h ∧ ps ≠ [] := by
  have hsh : scanHashes md5 source_dir fs =
      scanGroupsFrom md5 [] (walkEntries source_dir fs) := scanLoop_fst ..
  rw [hsh, mem_iff_findGroup _ (nodup_keys_scanGroupsFrom _ _ _ (by simp [keysOf])),
    findGroup_scanGroupsFrom]
  simp only [findGroup]
  by_cases hemp : hashedPaths md5 (walkEntries source_dir fs) h = []
  · simp [hemp]
  · rw [if_neg hemp]
    simp only [Option.some.injEq]
    constructor
    · rintro rfl; exact ⟨rfl, hemp⟩
    · rintro ⟨rfl, _⟩; rfl

theorem mem_hashedPaths (md5 : Content → String) (walk : List FsEntry)
    (h : String) (p : Path) :
    p ∈ hashedPaths md5 walk h ↔
      ∃ e ∈ walk, e.path = p ∧ ∃ c, e.read = .ok c ∧ md5 c = h := by
  simp only [hashedPaths, List.mem_filterMap]
  constructor
  · rintro ⟨e, he, hm⟩
    cases hre : e.read with
    | ok c =>
      rw [hre] at hm
      by_cases hmd : md5 c = h
      · simp only [hmd, if_true] at hm
        exact ⟨e, he, by simpa using hm, c, hre, hmd⟩
      · simp [hmd] at hm
    | error err => rw [hre] at hm; simp at hm
  · rintro ⟨e, he, rfl, c, hc, rfl⟩
    exact ⟨e, he, by rw [hc]; simp⟩

theorem walk_path_inj {walk : List FsEntry}
    (hnd : (walk.map FsEntry.path).Nodup) {e1 e2 : FsEntry}
    (h1 : e1 ∈ walk) (h2 : e2 ∈ walk) (hp : e1.path = e2.path) : e1 = e2 :=
  List.inj_on_of_nodup_map hnd h1 h2 hp

theorem makedirs_files (fs : FS) (p : Path) : (makedirs fs p).files = fs.files := rfl

theorem mem_makedirs_dirs (fs : FS) (p x : Path) :
    x ∈ (makedirs fs p).dirs ↔ x ∈ fs.dirs ∨ x ∈ initSegs p := by
  simp [makedirs]

theorem relpath_spec {source p : Path} (h : strictUnder source p = true) :
    relpath p source ≠ [] ∧ p = source ++ relpath p source := by
  obtain ⟨r, hr, rfl⟩ := (strictUnder_iff source p).mp h
  rw [relpath_append source r hr]
  exact ⟨hr, rfl⟩

theorem strictUnder_destOf {source p : Path} (target : Path)
    (h : strictUnder source p = true) :
    strictUnder target (destOf source target p) = true := by
  obtain ⟨hne, hp⟩ := relpath_spec h
  exact (strictUnder_iff target _).mpr ⟨relpath p source, hne, rfl⟩

theorem moveOne_ok (source target : Path) (fs : FS) (d : Path) (c : Content)
    (hsrc : assocLookup fs.files d = some c)
    (hund : strictUnder source d = true)
    (hdst : destOf source target d ∉ fs.dirs) :
    (moveOne (some source) target fs d).2 = .ok (destOf source target d) ∧
    (moveOne (some source) target fs d).1.files =
      assocSet (assocErase fs.files d) (destOf source target d) c ∧
    ∀ x ∈ (moveOne (some source) target fs d).1.dirs,
      x ∈ fs.dirs ∨ (hasBase x (destOf source target d) = true ∧
        x.length < (destOf source target d).length) := by
  obtain ⟨r, hr, rfl⟩ := (strictUnder_iff source d).mp hund
  have hrel : relpath (source ++ r) source = r := relpath_append source r hr
  have hdest : destOf source target (source ++ r) = target ++ r := by
    simp [destOf, hrel]
  rw [hdest] at hdst ⊢
  have hne : target ++ r ≠ [] := by simp [hr]
  set fs1 := if pathExists fs ((target ++ r).dropLast) then fs
    else makedirs fs ((target ++ r).dropLast) with hfs1
  have hfiles1 : fs1.files = fs.files := by
    rw [hfs1]; split <;> rfl
  have hdirs1 : ∀ x ∈ fs1.dirs, x ∈ fs.dirs ∨ x ∈ initSegs ((target ++ r).dropLast) := by
    rw [hfs1]; split
    · exact fun x hx => Or.inl hx
    · intro x hx
      simpa [makedirs] using hx
  have hnotmem : (target ++ r) ∉ fs1.dirs := by
    intro hmem
    rcases hdirs1 _ hmem with h | h
    · exact hdst h
    · obtain ⟨-, hb⟩ := (mem_initSegs _ _).mp h
      have hlen := hasBase_length hb
      rw [List.length_dropLast] at hlen
      have hpos : 0 < (target ++ r).length := List.length_pos.mpr hne
      omega
  have hcalc : moveOne (some source) target fs (source ++ r) =
      ({ fs1 with files := assocSet (assocErase fs.files (source ++ r)) (target ++ r) c },
        .ok (target ++ r)) := by
    unfold moveOne
    simp only [hrel, ← hfs1]
    rw [show shutil_move fs1 (source ++ r) (target ++ r) =
        os_rename fs1 (source ++ r) (target ++ r) by
      unfold shutil_move
      rw [if_neg hnotmem]]
    unfold os_rename
    rw [hfiles1, hsrc]
  rw [hcalc]
  refine ⟨rfl, rfl, ?_⟩
  intro x hx
  rcases hdirs1 x hx with h | h
  · exact Or.inl h
  · obtain ⟨-, hb⟩ := (mem_initSegs _ _).mp h
    refine Or.inr ⟨hasBase_trans hb (hasBase_dropLast _), ?_⟩
    have hlen := hasBase_length hb
    rw [List.length_dropLast] at hlen
    have hpos : 0 < (target ++ r).length := List.length_pos.mpr hne
    omega

theorem moveOne_none (target : Path) (fs : FS) (d : Path) :
    moveOne none target fs d =
      (fs, .error "NameError: name source_dir is not defined") := rfl

theorem moveOne_ok_shape (gsd : Option Path) (target : Path) (fs : FS) (d p : Path)
    (h : (moveOne gsd target fs d).2 = .ok p) :
    ∃ source, gsd = some source ∧ p = target ++ relpath d source := by
  cases gsd with
  | none => simp [moveOne] at h
  | some source =>
    refine ⟨source, rfl, ?_⟩
    unfold moveOne at h
    revert h
    cases hm : shutil_move
        (if pathExists fs ((target ++ relpath d source).dropLast) then fs
          else makedirs fs ((target ++ relpath d source).dropLast))
        d (target ++ relpath d source) with
    | ok fs2 =>
      intro h
      simp only [hm] at h
      injection h with h
      exact h.symm
    | error e =>
      intro h
      simp only [hm] at h
      cases h

theorem moveGroup_fst_map (gsd : Option Path) (target : Path) (fs : FS) (L : List Path) :
    (moveGroup gsd target fs L).2.map Prod.fst = L := by
  induction L generalizing fs with
  | nil => rfl
  | cons d rest ih => simp [moveGroup, ih]

theorem moveGroups_fst_map (gsd : Option Path) (target : Path) (fs : FS)
    (dups : List (String × List Path)) :
    (moveGroups gsd target fs dups).2.2.map Prod.fst = tailsOf dups := by
  induction dups generalizing fs with
  | nil => rfl
  | cons g rest ih =>
    obtain ⟨h, files⟩ := g
    simp only [moveGroups, List.map_append, moveGroup_fst_map, ih]
    simp [tailsOf]

theorem moveGroup_ok_shape (gsd : Option Path) (target : Path) (L : List Path)
    (fs : FS) (pr : Path × Except String Path)
    (hpr : pr ∈ (moveGroup gsd target fs L).2) (p : Path) (hok : pr.2 = .ok p) :
    ∃ source, gsd = some source ∧ p = target ++ relpath pr.1 source := by
  induction L generalizing fs with
  | nil => simp [moveGroup] at hpr
  | cons d rest ih =>
    simp only [moveGroup, List.mem_cons] at hpr
    rcases hpr with rfl | hpr
    · exact moveOne_ok_shape gsd target fs d p (by simpa using hok)
    · exact ih _ hpr

theorem moveGroups_ok_shape (gsd : Option Path) (target : Path)
    (dups : List (String × List Path)) (fs : FS) (pr : Path × Except String Path)
    (hpr : pr ∈ (moveGroups gsd target fs dups).2.2) (p : Path) (hok : pr.2 = .ok p) :
    ∃ source, gsd = some source ∧ p = target ++ relpath pr.1 source := by
  induction dups generalizing fs with
  | nil => simp [moveGroups] at hpr
  | cons g rest ih =>
    obtain ⟨h, files⟩ := g
    simp only [moveGroups, List.mem_append] at hpr
    rcases hpr with hpr | hpr
    · exact moveGroup_ok_shape gsd target files.tail fs pr hpr p hok
    · exact ih _ hpr

theorem moveGroups_entry_mem (gsd : Option Path) (target : Path)
    (dups : List (String × List Path)) (fs : FS) (pr : Path × Except String Path)
    (hpr : pr ∈ (moveGroups gsd target fs dups).2.2) :
    entryFor pr.1 pr.2 ∈ (moveGroups gsd target fs dups).2.1 := by
  induction dups generalizing fs with
  | nil => simp [moveGroups] at hpr
  | cons g rest ih =>
    obtain ⟨h, files⟩ := g
    simp only [moveGroups, List.mem_append] at hpr ⊢
    rcases hpr with hpr | hpr
    · refine Or.inl ?_
      have hm : entryFor pr.1 pr.2 ∈
          (moveGroup gsd target fs files.tail).2.map (fun a => entryFor a.1 a.2) :=
        List.mem_map.mpr ⟨pr, hpr, rfl⟩
      simp only [List.mem_cons, List.mem_append, List.mem_singleton]
      tauto
    · exact Or.inr (ih _ hpr)

theorem moveGroup_none (target : Path) (fs : FS) (L : List Path) :
    moveGroup none target fs L =
      (fs, L.map (fun p => (p, Except.error "NameError: name source_dir is not defined"))) := by
  induction L generalizing fs with
  | nil => rfl
  | cons d rest ih => simp [moveGroup, moveOne, ih]

theorem moveGroups_none (target : Path) (fs : FS) (dups : List (String × List Path)) :
    (moveGroups none target fs dups).1 = fs ∧
    (moveGroups none target fs dups).2.2 =
      (tailsOf dups).map
        (fun p => (p, Except.error "NameError: name source_dir is not defined")) := by
  induction dups generalizing fs with
  | nil => exact ⟨rfl, rfl⟩
  | cons g rest ih =>
    obtain ⟨h, files⟩ := g
    obtain ⟨ih1, ih2⟩ := ih fs
    constructor
    · simp [moveGroups, moveGroup_none, ih1]
    · simp [moveGroups, moveGroup_none, ih2, tailsOf]

theorem moveGroups_entries_structure (gsd : Option Path) (target : Path)
    (dups : List (String × List Path)) (fs : FS) :
    ∃ per : List (List (Path × Except String Path)),
      per.length = dups.length ∧
      (moveGroups gsd target fs dups).2.2 = per.flatten ∧
      (∀ pr ∈ dups.zip per, pr.2.map Prod.fst = pr.1.2.tail) ∧
      (moveGroups gsd target fs dups).2.1 =
        ((dups.zip per).map (fun pr =>
          ("原始文件: " ++ pathStr (pr.1.2.headD []) ++ "\n") ::
            (pr.2.map (fun a => entryFor a.1 a.2) ++ ["\n"]))).flatten := by
  induction dups generalizing fs with
  | nil => exact ⟨[], rfl, rfl, by simp, rfl⟩
  | cons g rest ih =>
    obtain ⟨h, files⟩ := g
    obtain ⟨per, hlen, hatt, hmap, hent⟩ := ih (moveGroup gsd target fs files.tail).1
    refine ⟨(moveGroup gsd target fs files.tail).2 :: per, by simp [hlen], ?_, ?_, ?_⟩
    · simp only [moveGroups, List.flatten_cons, hatt]
    · intro pr hpr
      simp only [List.zip_cons_cons, List.mem_cons] at hpr
      rcases hpr with rfl | hpr
      · exact moveGroup_fst_map gsd target fs files.tail
      · exact hmap pr hpr
    · simp only [moveGroups, List.zip_cons_cons, List.map_cons, List.flatten_cons, hent]
      simp

theorem move_duplicates_log (gsd : Option Path) (dups : List (String × List Path))
    (target : Path) (ts : String) (fs : FS) :
    assocLookup (move_duplicates gsd dups target ts fs).1.files (logFilePath target ts) =
      some (utf8 (String.intercalate "\n" (move_duplicates gsd dups target ts fs).2.1)) := by
  simp [move_duplicates, assocLookup_set_self]

theorem move_duplicates_files_ne (gsd : Option Path) (dups : List (String × List Path))
    (target : Path) (ts : String) (fs : FS) (q : Path)
    (hq : q ≠ logFilePath target ts) :
    assocLookup (move_duplicates gsd dups target ts fs).1.files q =
      assocLookup (moveGroups gsd target
        (if pathExists fs target then fs else makedirs fs target) dups).1.files q := by
  simp [move_duplicates, assocLookup_set_ne _ _ _ _ hq]

theorem moveGroup_spec (source target : Path) (L : List Path) (fs : FS)
    (Hnd : L.Nodup)
    (Hin : ∀ p ∈ L, (assocLookup fs.files p).isSome = true)
    (Hund : ∀ p ∈ L, strictUnder source p = true)
    (Hsep : ∀ p ∈ L, strictUnder target p = false)
    (Hnpp : ∀ p ∈ L, ∀ q ∈ L, p ≠ q → hasBase p q = false)
    (Hdirs : ∀ p ∈ L, destOf source target p ∉ fs.dirs) :
    (moveGroup (some source) target fs L).2 =
      L.map (fun p => (p, Except.ok (destOf source target p))) ∧
    (∀ p ∈ L, assocLookup (moveGroup (some source) target fs L).1.files p = none) ∧
    (∀ q : Path, q ∉ L → strictUnder target q = false →
      assocLookup (moveGroup (some source) target fs L).1.files q =
        assocLookup fs.files q) ∧
    (∀ x ∈ (moveGroup (some source) target fs L).1.dirs,
      x ∈ fs.dirs ∨ ∃ p ∈ L, hasBase x (destOf source target p) = true ∧
        x.length < (destOf source target p).length) := by
  induction L generalizing fs with
  | nil =>
    exact ⟨rfl, by simp, fun q _ _ => rfl, fun x hx => Or.inl hx⟩
  | cons d rest ih =>
    have hdL : d ∈ d :: rest := List.mem_cons_self d rest
    obtain ⟨c, hc⟩ : ∃ c, assocLookup fs.files d = some c := by
      have h := Hin d hdL
      cases hl : assocLookup fs.files d with
      | none => rw [hl] at h; simp at h
      | some c => exact ⟨c, rfl⟩
    obtain ⟨hOk, hFiles, hDirs2⟩ :=
      moveOne_ok source target fs d c hc (Hund d hdL) (Hdirs d hdL)
    have hdnr : d ∉ rest := (List.nodup_cons.mp Hnd).1
    have hndr : rest.Nodup := (List.nodup_cons.mp Hnd).2
    have hdestU : strictUnder target (destOf source target d) = true :=
      strictUnder_destOf target (Hund d hdL)
    have hlook2 : ∀ q : Path, strictUnder target q = false →
        assocLookup (moveOne (some source) target fs d).1.files q =
          if q = d then none else assocLookup fs.files q := by
      intro q hq
      have hqd : q ≠ destOf source target d := by
        intro h
        rw [h, hdestU] at hq
        cases hq
      rw [hFiles, assocLookup_set_ne _ _ _ _ hqd, assocLookup_erase]
    have Hin2 : ∀ p ∈ rest,
        (assocLookup (moveOne (some source) target fs d).1.files p).isSome = true := by
      intro p hp
      rw [hlook2 p (Hsep p (List.mem_cons_of_mem d hp)),
        if_neg (show ¬p = d from fun h => hdnr (by rw [← h]; exact hp))]
      exact Hin p (List.mem_cons_of_mem d hp)
    have Hdirs2r : ∀ p ∈ rest,
        destOf source target p ∉ (moveOne (some source) target fs d).1.dirs := by
      intro p hp hmem
      rcases hDirs2 _ hmem with h | ⟨hb, hlt⟩
      · exact Hdirs p (List.mem_cons_of_mem d hp) h
      · obtain ⟨hrne_p, hp_eq⟩ := relpath_spec (Hund p (List.mem_cons_of_mem d hp))
        obtain ⟨hrne_d, hd_eq⟩ := relpath_spec (Hund d hdL)
        have hb' : hasBase (relpath p source) (relpath d source) = true := by
          have hb2 := hb
          rw [destOf, destOf, hasBase_cancel] at hb2
          exact hb2
        have hbpd : hasBase p d = true := by
          rw [hp_eq, hd_eq, hasBase_cancel]
          exact hb'
        have hpd : p ≠ d := fun h => hdnr (h ▸ hp)
        rw [Hnpp p (List.mem_cons_of_mem d hp) d hdL hpd] at hbpd
        cases hbpd
    obtain ⟨ih1, ih2, ih3, ih4⟩ := ih (moveOne (some source) target fs d).1 hndr Hin2
      (fun p hp => Hund p (List.mem_cons_of_mem d hp))
      (fun p hp => Hsep p (List.mem_cons_of_mem d hp))
      (fun p hp q hq hne =>
        Hnpp p (List.mem_cons_of_mem d hp) q (List.mem_cons_of_mem d hq) hne)
      Hdirs2r
    have hgroup : moveGroup (some source) target fs (d :: rest) =
        ((moveGroup (some source) target (moveOne (some source) target fs d).1 rest).1,
          (d, (moveOne (some source) target fs d).2) ::
            (moveGroup (some source) target (moveOne (some source) target fs d).1 rest).2) :=
      rfl
    refine ⟨?_, ?_, ?_, ?_⟩
    · rw [hgroup]
      simp only [List.map_cons]
      rw [hOk, ih1]
    · intro p hp
      rcases List.mem_cons.mp hp with rfl | hp'
      · rw [hgroup]
        rw [ih3 p hdnr (Hsep p hdL), hlook2 p (Hsep p hdL), if_pos rfl]
      · rw [hgroup]
        exact ih2 p hp'
    · intro q hq hsq
      have hqd : q ≠ d := fun h => hq (by rw [h]; exact hdL)
      have hqr : q ∉ rest := fun h => hq (List.mem_cons_of_mem d h)
      rw [hgroup, ih3 q hqr hsq, hlook2 q hsq, if_neg hqd]
    · intro x hx
      rw [hgroup] at hx
      rcases ih4 x hx with h | ⟨p, hp, hb, hl⟩
      · rcases hDirs2 x h with h' | ⟨hb, hl⟩
        · exact Or.inl h'
        · exact Or.inr ⟨d, hdL, hb, hl⟩
      · exact Or.inr ⟨p, List.mem_cons_of_mem d hp, hb, hl⟩

theorem mem_tailsOf {dups : List (String × List Path)} {g : String × List Path}
    (hg : g ∈ dups) {p : Path} (hp : p ∈ g.2.tail) : p ∈ tailsOf dups := by
  simp only [tailsOf, List.mem_flatten, List.mem_map]
  exact ⟨g.2.tail, ⟨g, hg, rfl⟩, hp⟩

theorem mem_pathsOf {dups : List (String × List Path)} {g : String × List Path}
    (hg : g ∈ dups) {p : Path} (hp : p ∈ g.2) : p ∈ pathsOf dups := by
  simp only [pathsOf, List.mem_flatten, List.mem_map]
  exact ⟨g.2, ⟨g, hg, rfl⟩, hp⟩

theorem tailsOf_sublist (dups : List (String × List Path)) :
    List.Sublist (tailsOf dups) (pathsOf dups) := by
  induction dups with
  | nil => simp [tailsOf, pathsOf]
  | cons g rest ih =>
    simp only [tailsOf, pathsOf, List.map_cons, List.flatten_cons]
    exact List.Sublist.append (List.tail_sublist g.2) ih

theorem head_not_mem_tailsOf :
    ∀ (dups : List (String × List Path)), (pathsOf dups).Nodup →
      ∀ {g : String × List Path}, g ∈ dups → ∀ {o : Path} {t : List Path},
        g.2 = o :: t → o ∉ tailsOf dups := by
  intro dups
  induction dups with
  | nil =>
    intro _ g hg
    simp at hg
  | cons d rest ih =>
    intro hnd g hg o t hgt ho
    obtain ⟨hnd1, hnd2, hdisj⟩ := List.nodup_append.mp (by simpa [pathsOf] using hnd)
    rw [show tailsOf (d :: rest) = d.2.tail ++ tailsOf rest by simp [tailsOf]] at ho
    have hosplit := List.mem_append.mp ho
    clear ho
    rcases hosplit with ho1 | ho2
    · rcases List.mem_cons.mp hg with rfl | hg'
      · rw [hgt] at ho1 hnd1
        rcases List.nodup_cons.mp hnd1 with ⟨hot, -⟩
        exact hot (by simpa using ho1)
      · have homem : o ∈ pathsOf rest :=
          mem_pathsOf hg' (by rw [hgt]; exact List.mem_cons_self o t)
        exact hdisj (List.mem_of_mem_tail ho1) homem
    · rcases List.mem_cons.mp hg with rfl | hg'
      · have homem : o ∈ pathsOf rest := (tailsOf_sublist rest).subset ho2
        exact hdisj (by rw [hgt]; exact List.mem_cons_self o t) homem
      · exact ih hnd2 hg' hgt ho2

theorem moveGroups_spec (source target : Path) (dups : List (String × List Path))
    (fs : FS)
    (Hnd : (tailsOf dups).Nodup)
    (Hin : ∀ p ∈ tailsOf dups, (assocLookup fs.files p).isSome = true)
    (Hund : ∀ p ∈ tailsOf dups, strictUnder source p = true)
    (Hsep : ∀ p ∈ tailsOf dups, strictUnder target p = false)
    (Hnpp : ∀ p ∈ tailsOf dups, ∀ q ∈ tailsOf dups, p ≠ q → hasBase p q = false)
    (Hdirs : ∀ p ∈ tailsOf dups, destOf source target p ∉ fs.dirs) :
    (moveGroups (some source) target fs dups).2.2 =
      (tailsOf dups).map (fun p => (p, Except.ok (destOf source target p))) ∧
    (∀ p ∈ tailsOf dups,
      assocLookup (moveGroups (some source) target fs dups).1.files p = none) ∧
    (∀ q : Path, q ∉ tailsOf dups → strictUnder target q = false →
      assocLookup (moveGroups (some source) target fs dups).1.files q =
        assocLookup fs.files q) ∧
    (∀ x ∈ (moveGroups (some source) target fs dups).1.dirs,
      x ∈ fs.dirs ∨ ∃ p ∈ tailsOf dups, hasBase x (destOf source target p) = true ∧
        x.length < (destOf source target p).length) := by
  induction dups generalizing fs with
  | nil =>
    exact ⟨rfl, by simp [tailsOf], fun q _ _ => rfl, fun x hx => Or.inl hx⟩
  | cons g rest ih =>
    obtain ⟨hh, files⟩ := g
    have htails : tailsOf ((hh, files) :: rest) = files.tail ++ tailsOf rest := by
      simp [tailsOf]
    rw [htails] at Hnd Hin Hund Hsep Hnpp Hdirs ⊢
    obtain ⟨hnd1, hnd2, hdisj⟩ := List.nodup_append.mp Hnd
    obtain ⟨g1, g2, g3, g4⟩ := moveGroup_spec source target files.tail fs hnd1
      (fun p hp => Hin p (List.mem_append_left _ hp))
      (fun p hp => Hund p (List.mem_append_left _ hp))
      (fun p hp => Hsep p (List.mem_append_left _ hp))
      (fun p hp q hq hne => Hnpp p (List.mem_append_left _ hp)
        q (List.mem_append_left _ hq) hne)
      (fun p hp => Hdirs p (List.mem_append_left _ hp))
    have HinR : ∀ p ∈ tailsOf rest,
        (assocLookup (moveGroup (some source) target fs files.tail).1.files p).isSome
          = true := by
      intro p hp
      rw [g3 p (fun hp' => hdisj hp' hp) (Hsep p (List.mem_append_right _ hp))]
      exact Hin p (List.mem_append_right _ hp)
    have HdirsR : ∀ p ∈ tailsOf rest,
        destOf source target p ∉
          (moveGroup (some source) target fs files.tail).1.dirs := by
      intro p hp hmem
      rcases g4 _ hmem with h | ⟨p', hp', hb, hl⟩
      · exact Hdirs p (List.mem_append_right _ hp) h
      · obtain ⟨hrne_p, hp_eq⟩ := relpath_spec (Hund p (List.mem_append_right _ hp))
        obtain ⟨hrne_q, hq_eq⟩ := relpath_spec (Hund p' (List.mem_append_left _ hp'))
        have hb' : hasBase (relpath p source) (relpath p' source) = true := by
          have hb2 := hb
          rw [destOf, destOf, hasBase_cancel] at hb2
          exact hb2
        have hbpq : hasBase p p' = true := by
          rw [hp_eq, hq_eq, hasBase_cancel]
          exact hb'
        have hne : p ≠ p' := fun h => hdisj (by rw [← h] at hp'; exact hp') hp
        rw [Hnpp p (List.mem_append_right _ hp) p'
          (List.mem_append_left _ hp') hne] at hbpq
        cases hbpq
    obtain ⟨r1, r2, r3, r4⟩ := ih (moveGroup (some source) target fs files.tail).1
      hnd2 HinR
      (fun p hp => Hund p (List.mem_append_right _ hp))
      (fun p hp => Hsep p (List.mem_append_right _ hp))
      (fun p hp q hq hne => Hnpp p (List.mem_append_right _ hp)
        q (List.mem_append_right _ hq) hne)
      HdirsR
    have hgroups : moveGroups (some source) target fs ((hh, files) :: rest) =
        ((moveGroups (some source) target
            (moveGroup (some source) target fs files.tail).1 rest).1,
          (("原始文件: " ++ pathStr (files.headD []) ++ "\n") ::
            (moveGroup (some source) target fs files.tail).2.map
              (fun a => entryFor a.1 a.2) ++ ["\n"]) ++
            (moveGroups (some source) target
              (moveGroup (some source) target fs files.tail).1 rest).2.1,
          (moveGroup (some source) target fs files.tail).2 ++
            (moveGroups (some source) target
              (moveGroup (some source) target fs files.tail).1 rest).2.2) := rfl
    refine ⟨?_, ?_, ?_, ?_⟩
    · rw [hgroups]
      show (moveGroup (some source) target fs files.tail).2 ++
          (moveGroups (some source) target
            (moveGroup (some source) target fs files.tail).1 rest).2.2 = _
      rw [g1, r1, List.map_append]
    · intro p hp
      rw [hgroups]
      rcases List.mem_append.mp hp with hp' | hp'
      · show assocLookup (moveGroups (some source) target
            (moveGroup (some source) target fs files.tail).1 rest).1.files p = none
        rw [r3 p (fun hm => hdisj hp' hm) (Hsep p (List.mem_append_left _ hp'))]
        exact g2 p hp'
      · exact r2 p hp'
    · intro q hq hsq
      rw [hgroups]
      have hql : q ∉ files.tail := fun h => hq (List.mem_append_left _ h)
      have hqr : q ∉ tailsOf rest := fun h => hq (List.mem_append_right _ h)
      show assocLookup (moveGroups (some source) target
          (moveGroup (some source) target fs files.tail).1 rest).1.files q = _
      rw [r3 q hqr hsq, g3 q hql hsq]
    · intro x hx
      rw [hgroups] at hx
      rcases r4 x hx with h | ⟨p, hp, hb, hl⟩
      · rcases g4 x h with h' | ⟨p, hp, hb, hl⟩
        · exact Or.inl h'
        · exact Or.inr ⟨p, List.mem_append_left _ hp, hb, hl⟩
      · exact Or.inr ⟨p, List.mem_append_right _ hp, hb, hl⟩

theorem strictUnder_logFilePath (target : Path) (ts : String) :
    strictUnder target (logFilePath target ts) = true :=
  (strictUnder_iff ..).mpr ⟨["duplicates_log_" ++ ts ++ ".txt"], by simp, rfl⟩

theorem ne_logFilePath_of_sep {target q : Path} (ts : String)
    (h : strictUnder target q = false) : q ≠ logFilePath target ts := by
  intro he
  rw [he, strictUnder_logFilePath] at h
  cases h

/-- C1: for every pair of files under the source root that are
successfully hashed, identical byte content puts them in the same digest
group and, absent a hash collision, differing content puts them in
different groups; and `find_duplicates` returns exactly the groups with
two or more paths. -/
theorem claim_C1 (md5 : Content → String) (fs : FS) (source_dir : Path)
    (e1 e2 : FsEntry) (c1 c2 : Content)
    (hnd : ((walkEntries source_dir fs).map FsEntry.path).Nodup)
    (h1 : e1 ∈ walkEntries source_dir fs) (h2 : e2 ∈ walkEntries source_dir fs)
    (r1 : e1.read = .ok c1) (r2 : e2.read = .ok c2) :
    (c1 = c2 → ∃ g ∈ scanHashes md5 source_dir fs, e1.path ∈ g.2 ∧ e2.path ∈ g.2) ∧
    (c1 ≠ c2 → md5 c1 ≠ md5 c2 →
      ∀ g ∈ scanHashes md5 source_dir fs, ¬(e1.path ∈ g.2 ∧ e2.path ∈ g.2)) ∧
    (find_duplicates md5 source_dir fs).1 =
      (scanHashes md5 source_dir fs).filter (fun g => decide (1 < g.2.length)) := by
  refine ⟨?_, ?_, rfl⟩
  · intro hc
    subst hc
    have hp1 : e1.path ∈ hashedPaths md5 (walkEntries source_dir fs) (md5 c1) :=
      (mem_hashedPaths ..).mpr ⟨e1, h1, rfl, c1, r1, rfl⟩
    have hp2 : e2.path ∈ hashedPaths md5 (walkEntries source_dir fs) (md5 c1) :=
      (mem_hashedPaths ..).mpr ⟨e2, h2, rfl, c1, r2, rfl⟩
    exact ⟨(md5 c1, hashedPaths md5 (walkEntries source_dir fs) (md5 c1)),
      (mem_scanHashes ..).mpr ⟨rfl, List.ne_nil_of_mem hp1⟩, hp1, hp2⟩
  · rintro _ hmd ⟨h, ps⟩ hg ⟨hm1, hm2⟩
    rw [mem_scanHashes] at hg
    obtain ⟨rfl, -⟩ := hg
    obtain ⟨f1, hf1, hfp1, d1, hd1, hmd1⟩ := (mem_hashedPaths ..).mp hm1
    obtain ⟨f2, hf2, hfp2, d2, hd2, hmd2⟩ := (mem_hashedPaths ..).mp hm2
    have he1 : f1 = e1 := walk_path_inj hnd hf1 h1 hfp1
    have he2 : f2 = e2 := walk_path_inj hnd hf2 h2 hfp2
    subst he1; subst he2
    rw [r1] at hd1
    rw [r2] at hd2
    injection hd1 with hd1
    injection hd2 with hd2
    exact hmd (by rw [hd1, hd2, hmd1, hmd2])

/-- Witness for C1 on a concrete filesystem: `/s/a` and `/s/b` share
content `[1]`, `/s/c` holds `[2]`. -/
theorem claim_C1_witness :
    (∃ g ∈ scanHashes md5W ["s"] fsW, ["s", "a"] ∈ g.2 ∧ ["s", "b"] ∈ g.2) ∧
    (∀ g ∈ scanHashes md5W ["s"] fsW, ¬(["s", "a"] ∈ g.2 ∧ ["s", "c"] ∈ g.2)) ∧
    (find_duplicates md5W ["s"] fsW).1 =
      (scanHashes md5W ["s"] fsW).filter (fun g => decide (1 < g.2.length)) := by
  refine ⟨?_, ?_, ?_⟩
  · exact (claim_C1 md5W fsW ["s"] ⟨["s", "a"], .ok [1]⟩ ⟨["s", "b"], .ok [1]⟩ [1] [1]
      (by decide) (by decide) (by decide) rfl rfl).1 rfl
  · exact (claim_C1 md5W fsW ["s"] ⟨["s", "a"], .ok [1]⟩ ⟨["s", "c"], .ok [2]⟩ [1] [2]
      (by decide) (by decide) (by decide) rfl rfl).2.1 (by decide) (by decide)
  · exact (claim_C1 md5W fsW ["s"] ⟨["s", "a"], .ok [1]⟩ ⟨["s", "b"], .ok [1]⟩ [1] [1]
      (by decide) (by decide) (by decide) rfl rfl).2.2

/-- C6: a file whose open or read fails is hashed to `None` with a
diagnostic carrying the path and cause, its path appears in no digest
group, and the scan continues: the grouping equals that of the readable
entries alone and the file counter still counts every walked file. -/
theorem claim_C6 (md5 : Content → String) (fs : FS) (source_dir : Path)
    (e : FsEntry) (err : String)
    (hnd : ((walkEntries source_dir fs).map FsEntry.path).Nodup)
    (he : e ∈ walkEntries source_dir fs) (hr : e.read = .error err) :
    compute_hash md5 e = (none, ["无法读取文件 " ++ pathStr e.path ++ ": " ++ err]) ∧
    (∀ g ∈ scanHashes md5 source_dir fs, e.path ∉ g.2) ∧
    scanHashes md5 source_dir fs =
      scanGroupsFrom md5 [] ((walkEntries source_dir fs).filter readOk) ∧
    (find_duplicates md5 source_dir fs).2.1 = (walkEntries source_dir fs).length := by
  refine ⟨by simp [compute_hash, hr], ?_, ?_, ?_⟩
  · rintro ⟨h, ps⟩ hg hm
    rw [mem_scanHashes] at hg
    obtain ⟨rfl, -⟩ := hg
    obtain ⟨f, hf, hfp, c, hc, -⟩ := (mem_hashedPaths ..).mp hm
    have hfe : f = e := walk_path_inj hnd hf he hfp
    rw [hfe, hr] at hc
    simp at hc
  · rw [show scanHashes md5 source_dir fs =
        scanGroupsFrom md5 [] (walkEntries source_dir fs) from scanLoop_fst ..]
    exact (scanGroupsFrom_filter ..).symm
  · simpa using scanLoop_count md5 (walkEntries source_dir fs) [] 0 []

/-- Witness for C6: `/s/a` is unreadable with a permission error on the
concrete filesystem `fsW6`. -/
theorem claim_C6_witness :
    compute_hash md5W ⟨["s", "a"], .error "Permission denied"⟩ =
      (none, ["无法读取文件 " ++ pathStr ["s", "a"] ++ ": " ++ "Permission denied"]) ∧
    (∀ g ∈ scanHashes md5W ["s"] fsW6, ["s", "a"] ∉ g.2) ∧
    scanHashes md5W ["s"] fsW6 =
      scanGroupsFrom md5W [] ((walkEntries ["s"] fsW6).filter readOk) ∧
    (find_duplicates md5W ["s"] fsW6).2.1 = (walkEntries ["s"] fsW6).length :=
  claim_C6 md5W fsW6 ["s"] ⟨["s", "a"], .error "Permission denied"⟩ "Permission denied"
    (by decide) (by decide) rfl

/-- C2: per duplicate group, the first path is never moved (its binding
is untouched), every other path is gone from its source location after
relocation, and the attempted relocations are exactly the non-first paths
of the groups, in order; thus exactly one file per group remains in
place, namely the first discovered.  The hypotheses state that the
groups' paths are distinct files under the source, that the target
subtree is disjoint from them and initially empty, and that no group
path lies below another (files are not directories). -/
theorem claim_C2 (source target : Path) (ts : String) (fs : FS)
    (dups : List (String × List Path))
    (Hnd : (pathsOf dups).Nodup)
    (Hin : ∀ p ∈ pathsOf dups, (assocLookup fs.files p).isSome = true)
    (Hund : ∀ p ∈ pathsOf dups, strictUnder source p = true)
    (Hsep : ∀ p ∈ pathsOf dups, strictUnder target p = false)
    (Hnpp : ∀ p ∈ pathsOf dups, ∀ q ∈ pathsOf dups, p ≠ q → hasBase p q = false)
    (Hfd : ∀ x ∈ fs.dirs, strictUnder target x = false) :
    (∀ g ∈ dups, ∀ o t, g.2 = o :: t →
      assocLookup (move_duplicates (some source) dups target ts fs).1.files o =
        assocLookup fs.files o ∧
      ∀ p ∈ t,
        assocLookup (move_duplicates (some source) dups target ts fs).1.files p =
          none) ∧
    (move_duplicates (some source) dups target ts fs).2.2.map Prod.fst =
      tailsOf dups := by
  have hsub : ∀ p ∈ tailsOf dups, p ∈ pathsOf dups :=
    fun p hp => (tailsOf_sublist dups).subset hp
  have hfs0files :
      (if pathExists fs target then fs else makedirs fs target).files = fs.files := by
    split <;> rfl
  have hfs0dirs : ∀ x ∈ (if pathExists fs target then fs
      else makedirs fs target).dirs, x ∈ fs.dirs ∨ x ∈ initSegs target := by
    split
    · exact fun x hx => Or.inl hx
    · intro x hx
      simpa [makedirs] using hx
  have Hdirs0 : ∀ p ∈ tailsOf dups, destOf source target p ∉
      (if pathExists fs target then fs else makedirs fs target).dirs := by
    intro p hp hmem
    rcases hfs0dirs _ hmem with h | h
    · have hf := Hfd _ h
      rw [strictUnder_destOf target (Hund p (hsub p hp))] at hf
      cases hf
    · obtain ⟨-, hb⟩ := (mem_initSegs _ _).mp h
      have hlen := hasBase_length hb
      obtain ⟨hrne, -⟩ := relpath_spec (Hund p (hsub p hp))
      have hdlen : (destOf source target p).length =
          target.length + (relpath p source).length := by
        simp [destOf]
      have hpos : 0 < (relpath p source).length := List.length_pos.mpr hrne
      omega
  obtain ⟨m1, m2, m3, m4⟩ := moveGroups_spec source target dups
    (if pathExists fs target then fs else makedirs fs target)
    (Hnd.sublist (tailsOf_sublist dups))
    (fun p hp => by rw [hfs0files]; exact Hin p (hsub p hp))
    (fun p hp => Hund p (hsub p hp))
    (fun p hp => Hsep p (hsub p hp))
    (fun p hp q hq hne => Hnpp p (hsub p hp) q (hsub q hq) hne)
    Hdirs0
  constructor
  · intro g hg o t hgt
    have hoP : o ∈ pathsOf dups :=
      mem_pathsOf hg (by rw [hgt]; exact List.mem_cons_self o t)
    have hoT : o ∉ tailsOf dups := head_not_mem_tailsOf dups Hnd hg hgt
    have hoSep : strictUnder target o = false := Hsep o hoP
    constructor
    · rw [move_duplicates_files_ne _ _ _ _ _ _ (ne_logFilePath_of_sep ts hoSep),
        m3 o hoT hoSep, hfs0files]
    · intro p hp
      have hpT : p ∈ tailsOf dups := mem_tailsOf hg (by rw [hgt]; simpa using hp)
      have hpSep : strictUnder target p = false := Hsep p (hsub p hpT)
      rw [move_duplicates_files_ne _ _ _ _ _ _ (ne_logFilePath_of_sep ts hpSep)]
      exact m2 p hpT
  · exact moveGroups_fst_map (some source) target
      (if pathExists fs target then fs else makedirs fs target) dups

/-- Witness for C2 on a concrete run: group `[/s/a, /s/b, /s/sub/c]` with
`/s/a` the original. -/
theorem claim_C2_witness :
    (assocLookup (move_duplicates (some ["s"]) dupsW2 ["t"] "TS" fsW2).1.files
        ["s", "a"] = assocLookup fsW2.files ["s", "a"] ∧
      ∀ p ∈ [["s", "b"], ["s", "sub", "c"]],
        assocLookup (move_duplicates (some ["s"]) dupsW2 ["t"] "TS" fsW2).1.files p =
          none) ∧
    (move_duplicates (some ["s"]) dupsW2 ["t"] "TS" fsW2).2.2.map Prod.fst =
      tailsOf dupsW2 := by
  have h := claim_C2 ["s"] ["t"] "TS" fsW2 dupsW2 (by decide) (by decide) (by decide)
    (by decide) (by decide) (by decide)
  exact ⟨h.1 ("x", [["s", "a"], ["s", "b"], ["s", "sub", "c"]]) (by decide)
    ["s", "a"] [["s", "b"], ["s", "sub", "c"]] rfl, h.2⟩

/-- C3: every successfully moved duplicate lands at the join of the
target root with its path relative to the source root, and exactly that
destination is recorded in the log entry for the duplicate. -/
theorem claim_C3 (source target : Path) (ts : String) (fs : FS)
    (dups : List (String × List Path)) (pr : Path × Except String Path)
    (hpr : pr ∈ (move_duplicates (some source) dups target ts fs).2.2) (d : Path)
    (hok : pr.2 = .ok d) :
    d = target ++ relpath pr.1 source ∧
    ("  重复文件: " ++ pathStr pr.1 ++ "\n  移动到: " ++ pathStr d ++ "\n") ∈
      (move_duplicates (some source) dups target ts fs).2.1 := by
  obtain ⟨s', hs, hd⟩ := moveGroups_ok_shape (some source) target dups
    (if pathExists fs target then fs else makedirs fs target) pr hpr d hok
  injection hs with hs
  subst hs
  refine ⟨hd, ?_⟩
  have h2 := moveGroups_entry_mem (some source) target dups
    (if pathExists fs target then fs else makedirs fs target) pr hpr
  rw [hok] at h2
  simpa [entryFor] using h2

/-- Witness for C3 on a concrete run: `/s/b` is moved to `/t/b`. -/
theorem claim_C3_witness :
    ["t", "b"] = ["t"] ++ relpath ["s", "b"] ["s"] ∧
    ("  重复文件: " ++ pathStr ["s", "b"] ++ "\n  移动到: " ++ pathStr ["t", "b"] ++
        "\n") ∈
      (move_duplicates (some ["s"]) dupsW ["t"] "TS" fsW).2.1 :=
  claim_C3 ["s"] ["t"] "TS" fsW dupsW (["s", "b"], Except.ok ["t", "b"])
    (by decide) ["t", "b"] rfl

/-- C7: every duplicate of every group is attempted in order regardless
of earlier failures (relocation is never aborted), and every failed
attempt contributes a log entry carrying the duplicate's path and the
error. -/
theorem claim_C7 (gsd : Option Path) (dups : List (String × List Path))
    (target : Path) (ts : String) (fs : FS) :
    (move_duplicates gsd dups target ts fs).2.2.map Prod.fst = tailsOf dups ∧
    ∀ pr ∈ (move_duplicates gsd dups target ts fs).2.2, ∀ e, pr.2 = .error e →
      ("  无法移动文件: " ++ pathStr pr.1 ++ ". 错误: " ++ e ++ "\n") ∈
        (move_duplicates gsd dups target ts fs).2.1 := by
  refine ⟨moveGroups_fst_map gsd target
    (if pathExists fs target then fs else makedirs fs target) dups, ?_⟩
  intro pr hpr e he
  have h2 := moveGroups_entry_mem gsd target dups
    (if pathExists fs target then fs else makedirs fs target) pr hpr
  rw [he] at h2
  simpa [entryFor] using h2

/-- Witness for C7 on a concrete run where the group holds a vanished
file `/s/gone`: its move fails and is logged, and the following
duplicate `/s/b` is still attempted. -/
theorem claim_C7_witness :
    (move_duplicates (some ["s"]) dupsW7 ["t"] "TS" fsW7).2.2.map Prod.fst =
      tailsOf dupsW7 ∧
    ("  无法移动文件: " ++ pathStr ["s", "gone"] ++ ". 错误: " ++
        "FileNotFoundError: /s/gone" ++ "\n") ∈
      (move_duplicates (some ["s"]) dupsW7 ["t"] "TS" fsW7).2.1 := by
  have h := claim_C7 (some ["s"]) dupsW7 ["t"] "TS" fsW7
  exact ⟨h.1, h.2 (["s", "gone"], Except.error "FileNotFoundError: /s/gone")
    (by decide) "FileNotFoundError: /s/gone" rfl⟩

/-- C10: called while the module-level global `source_dir` is unbound,
`move_duplicates` fails every single move with the caught `NameError`,
logs each failure, and relocates no file: apart from the written log
file, the file table is untouched. -/
theorem claim_C10 (dups : List (String × List Path)) (target : Path)
    (ts : String) (fs : FS) :
    (move_duplicates none dups target ts fs).2.2 =
      (tailsOf dups).map
        (fun p => (p, Except.error "NameError: name source_dir is not defined")) ∧
    (∀ pr ∈ (move_duplicates none dups target ts fs).2.2,
      entryFor pr.1 pr.2 ∈ (move_duplicates none dups target ts fs).2.1) ∧
    ∀ q : Path, q ≠ logFilePath target ts →
      assocLookup (move_duplicates none dups target ts fs).1.files q =
        assocLookup fs.files q := by
  obtain ⟨h1, h2⟩ := moveGroups_none target
    (if pathExists fs target then fs else makedirs fs target) dups
  refine ⟨h2, fun pr hpr => moveGroups_entry_mem none target dups _ pr hpr, ?_⟩
  intro q hq
  rw [move_duplicates_files_ne _ _ _ _ _ _ hq, h1]
  have hf : (if pathExists fs target then fs else makedirs fs target).files =
      fs.files := by
    split <;> rfl
  rw [hf]

/-- Witness for C10 on a concrete run with the global unbound. -/
theorem claim_C10_witness :
    (move_duplicates none dupsW ["t"] "TS" fsW).2.2 =
      (tailsOf dupsW).map
        (fun p => (p, Except.error "NameError: name source_dir is not defined")) ∧
    entryFor ["s", "b"] (Except.error "NameError: name source_dir is not defined") ∈
      (move_duplicates none dupsW ["t"] "TS" fsW).2.1 ∧
    assocLookup (move_duplicates none dupsW ["t"] "TS" fsW).1.files ["s", "b"] =
      assocLookup fsW.files ["s", "b"] := by
  have h := claim_C10 dupsW ["t"] "TS" fsW
  exact ⟨h.1,
    h.2.1 (["s", "b"], Except.error "NameError: name source_dir is not defined")
      (by decide),
    h.2.2 ["s", "b"] (by decide)⟩

/-- C9 (amended): the written log file holds the UTF-8 encoding of the
newline-join of the log entries, where each group contributes one
newline-terminated entry `原始文件: <orig>\n`, one newline-terminated
entry per duplicate (`  重复文件: <dup>\n  移动到: <dest>\n` on success,
`  无法移动文件: <dup>. 错误: <err>\n` on failure) and a blank entry
`\n`; because every entry already ends in a newline, the join places a
blank line after the original's line and after each duplicate's entry,
and three blank lines between consecutive groups, rather than single
blank lines only between blocks. -/
theorem claim_C9_amended (gsd : Option Path) (dups : List (String × List Path))
    (target : Path) (ts : String) (fs : FS) :
    ∃ per : List (List (Path × Except String Path)),
      per.length = dups.length ∧
      (move_duplicates gsd dups target ts fs).2.2 = per.flatten ∧
      (∀ pr ∈ dups.zip per, pr.2.map Prod.fst = pr.1.2.tail) ∧
      (move_duplicates gsd dups target ts fs).2.1 =
        ((dups.zip per).map (fun pr =>
          ("原始文件: " ++ pathStr (pr.1.2.headD []) ++ "\n") ::
            (pr.2.map (fun a => entryFor a.1 a.2) ++ ["\n"]))).flatten ∧
      assocLookup (move_duplicates gsd dups target ts fs).1.files
          (logFilePath target ts) =
        some (utf8 (String.intercalate "\n"
          (move_duplicates gsd dups target ts fs).2.1)) := by
  obtain ⟨per, h1, h2, h3, h4⟩ := moveGroups_entries_structure gsd target dups
    (if pathExists fs target then fs else makedirs fs target)
  exact ⟨per, h1, h2, h3, h4, move_duplicates_log ..⟩

/-- Witness deriving the written-file clause of the amended C9 on a
concrete run. -/
theorem claim_C9_witness :
    assocLookup (move_duplicates (some ["s"]) dupsW ["t"] "TS" fsW).1.files
        (logFilePath ["t"] "TS") =
      some (utf8 (String.intercalate "\n"
        (move_duplicates (some ["s"]) dupsW ["t"] "TS" fsW).2.1)) := by
  obtain ⟨per, -, -, -, -, h5⟩ := claim_C9_amended (some ["s"]) dupsW ["t"] "TS" fsW
  exact h5

/-- Counterexample to C9 as stated: on a concrete run the written log is
not in the claimed block layout — each entry already ends in a newline
and the entries are then newline-joined, so a blank line separates the
`原始文件` line from the `  重复文件` line inside the single group. -/
theorem claim_C9_counterexample :
    assocLookup (move_duplicates (some ["s"]) dupsW ["t"] "TS" fsW).1.files
        (logFilePath ["t"] "TS") =
      some (utf8 "原始文件: /s/a\n\n  重复文件: /s/b\n  移动到: /t/b\n\n\n") ∧
    assocLookup (move_duplicates (some ["s"]) dupsW ["t"] "TS" fsW).1.files
        (logFilePath ["t"] "TS") ≠
      some (utf8 (claimedLogC9 dupsW ["s"] ["t"])) := by
  constructor
  · decide
  · decide

/-- C5 as a code bug, at a concrete failing input: the destination
`/t/b` already holds content `[2]`, yet the move of `/s/b` is reported
successful, the log records a success, and the pre-existing file is
silently overwritten with `[1]` — `shutil.move` falls through to
`os.rename`, which on POSIX replaces an existing destination file, so the
claimed fail-and-log behaviour does not happen. -/
theorem claim_C5_bug :
    assocLookup fsW5.files ["t", "b"] = some [2] ∧
    (move_duplicates (some ["s"]) dupsW ["t"] "TS" fsW5).2.2 =
      [(["s", "b"], Except.ok ["t", "b"])] ∧
    assocLookup (move_duplicates (some ["s"]) dupsW ["t"] "TS" fsW5).1.files
        ["t", "b"] = some [1] ∧
    ("  重复文件: " ++ pathStr ["s", "b"] ++ "\n  移动到: " ++ pathStr ["t", "b"] ++
        "\n") ∈ (move_duplicates (some ["s"]) dupsW ["t"] "TS" fsW5).2.1 := by
  refine ⟨rfl, by decide, by decide, by decide⟩

/-- C4: when the scan of a valid source finds no duplicate group, `main`
reports it and returns with the filesystem unchanged: no target
directory created, no log file written, no file moved. -/
theorem claim_C4 (md5 : Content → String) (gsd : Option Path) (ts : String)
    (fs : FS) (source_dir target_dir : Path)
    (hdir : source_dir ∈ fs.dirs)
    (hnodup : (find_duplicates md5 source_dir fs).1 = []) :
    (main md5 gsd ts fs source_dir target_dir).1 = fs ∧
    "没有找到重复文件。" ∈ (main md5 gsd ts fs source_dir target_dir).2 := by
  simp [main, hdir, hnodup]

/-- Witness for C4: a source holding one unique file. -/
theorem claim_C4_witness :
    (main md5W (some ["s"]) "TS" fsW4 ["s"] ["t"]).1 = fsW4 ∧
    "没有找到重复文件。" ∈ (main md5W (some ["s"]) "TS" fsW4 ["s"] ["t"]).2 :=
  claim_C4 md5W (some ["s"]) "TS" fsW4 ["s"] ["t"] (by decide) (by decide)

/-- C8: an invalid source directory makes `main` print the start-up
lines plus the error line and return the filesystem unchanged before any
traversal; the embedding is a total function, so the run ends cleanly
with no exception and no filesystem effect. -/
theorem claim_C8 (md5 : Content → String) (gsd : Option Path) (ts : String)
    (fs : FS) (source_dir target_dir : Path)
    (h : source_dir ∉ fs.dirs) :
    main md5 gsd ts fs source_dir target_dir =
      (fs, ["开始处理...", "源文件夹: " ++ pathStr source_dir,
        "目标文件夹: " ++ pathStr target_dir,
        "错误：源文件夹不存在: " ++ pathStr source_dir]) := by
  simp [main, h]

/-- Witness for C8: a run on an empty filesystem without the source. -/
theorem claim_C8_witness :
    main md5W none "TS" ⟨[], [], []⟩ ["s"] ["t"] =
      (⟨[], [], []⟩, ["开始处理...", "源文件夹: " ++ pathStr ["s"],
        "目标文件夹: " ++ pathStr ["t"],
        "错误：源文件夹不存在: " ++ pathStr ["s"]]) :=
  claim_C8 md5W none "TS" ⟨[], [], []⟩ ["s"] ["t"] (by decide)

end FindDup
